import Mathlib

/-!
Verification of the arithmetic-expression evaluator (Advent of Code 2020 day 18
style): a tokenizer plus two recursive-descent evaluators over tokens
`Int / Add / Mul / LParen / RParen`.

The embedding mirrors `src/main.rs`:

* `Token`, `tokenize` and `parse_num` model the `Tokenizer` iterator.  The
  source stores literal values in an `i64` obtained by
  `buf.parse::<i64>().unwrap()`; that parse fails (and the program panics) when
  the accumulated digit string exceeds `i64::MAX = 9223372036854775807`, so
  `parse_num` and `tokenize` return an `Option`, with `none` modelling that
  panic.  Values are modelled as mathematical `Int`; no claim exercises `i64`
  wrap-around in `+`/`*` (all claimed inputs stay far below `2^63`), while the
  literal-parse bound, which some claims do exercise, is modelled exactly.
* The evaluators' panics (`expect` / `panic!`) become the `EvalError` type.
  The Rust functions recurse on a mutating `Peekable` stream; here each
  function takes the token list and returns the unconsumed remainder.  Rust's
  unbounded recursion is modelled with an explicit fuel parameter; the theorem
  for fuel sufficiency shows `2 * length + 2` fuel never runs out, so the
  top-level wrappers `eval` (the spec's `evaluate_flat`) and `fval` (the
  spec's `evaluate_with_precedence`) never produce the `outOfFuel` artifact.
-/

/-- Token type of the tokenizer: `Int(i64)`, `+`, `*`, `(`, `)`. -/
inductive Token where
  | int (n : Int)
  | add
  | mul
  | lparen
  | rparen
deriving DecidableEq, Repr

/-- Dropping a prefix does not lengthen a list (termination helper). -/
theorem dropWhile_length_le (p : Char → Bool) (l : List Char) :
    (List.dropWhile p l).length ≤ l.length := by
  induction l with
  | nil => simp [List.dropWhile]
  | cons c cs ih =>
    rw [List.dropWhile_cons]
    split
    · exact Nat.le_succ_of_le ih
    · exact Nat.le_refl _

/-- Rust's digit pattern `'0'..='9'`. -/
def isDigitChar (c : Char) : Bool :=
  decide ('0' ≤ c) && decide (c ≤ '9')

/-- Value of a decimal digit string, as computed by `str::parse` on a string of
digits (most significant first). -/
def digitsToNat (ds : List Char) : Nat :=
  ds.foldl (fun acc c => 10 * acc + (c.toNat - 48)) 0

/-- Largest value accepted by `buf.parse::<i64>()`, namely `i64::MAX`. -/
def i64Max : Nat := 9223372036854775807

/-- `Tokenizer::parse_num`: starting from digit `first`, greedily consume the
following consecutive digits of `cs` and parse the accumulated buffer as an
`i64`; `none` models the `unwrap` panic when the value exceeds `i64::MAX`. -/
def parse_num (first : Char) (cs : List Char) : Option (Token × List Char) :=
  let v := digitsToNat (first :: cs.takeWhile isDigitChar)
  if v ≤ i64Max then some (.int v, cs.dropWhile isDigitChar) else none

/-- The `Iterator` impl for `Tokenizer`, run to exhaustion: `+ * ( )` map to
their tokens, a digit starts `parse_num`, any other character is skipped, and
the stream ends when the characters are exhausted.  `none` models the panic
inside `parse_num`. -/
def tokenize : List Char → Option (List Token)
  | [] => some []
  | c :: cs =>
    if c = '+' then (tokenize cs).map (Token.add :: ·)
    else if c = '*' then (tokenize cs).map (Token.mul :: ·)
    else if c = '(' then (tokenize cs).map (Token.lparen :: ·)
    else if c = ')' then (tokenize cs).map (Token.rparen :: ·)
    else if isDigitChar c then
      let v := digitsToNat (c :: cs.takeWhile isDigitChar)
      if v ≤ i64Max then
        (tokenize (cs.dropWhile isDigitChar)).map (Token.int v :: ·)
      else none
    else tokenize cs
termination_by cs => cs.length
decreasing_by
  all_goals simp_wf
  all_goals first
    | exact Nat.lt_succ_of_le (Nat.le_refl _)
    | exact Nat.lt_succ_of_le (dropWhile_length_le _ _)

/-- Maximal runs of consecutive decimal digits of a character source, in order;
these are exactly the buffers `parse_num` accumulates. -/
def digitRuns : List Char → List (List Char)
  | [] => []
  | c :: cs =>
    if isDigitChar c then
      (c :: cs.takeWhile isDigitChar) :: digitRuns (cs.dropWhile isDigitChar)
    else digitRuns cs
termination_by cs => cs.length
decreasing_by
  all_goals simp_wf
  all_goals first
    | exact Nat.lt_succ_of_le (Nat.le_refl _)
    | exact Nat.lt_succ_of_le (dropWhile_length_le _ _)

/-- The evaluators' fatal conditions.  The first three model the panics of the
source (`UnexpectedEndOfInput`, `IllegalOperandToken`, `IllegalOperatorToken`
in the spec's taxonomy); `outOfFuel` is an artifact of the fuel-based
embedding, proved unreachable for fuel `2 * length + 2`. -/
inductive EvalError where
  | unexpectedEndOfInput
  | illegalOperandToken (t : Token)
  | illegalOperatorToken (t : Token)
  | outOfFuel
deriving DecidableEq, Repr

mutual

/-- `eval_operand`: consume one token; an `Int` is its value, an `LParen`
opens a subexpression, anything else (or end of stream) is fatal. -/
def eval_operand : Nat → List Token → Except EvalError (Int × List Token)
  | 0, _ => .error .outOfFuel
  | _ + 1, [] => .error .unexpectedEndOfInput
  | _ + 1, .int n :: rest => .ok (n, rest)
  | fuel + 1, .lparen :: rest => eval_subexpr fuel rest
  | _ + 1, t :: _ => .error (.illegalOperandToken t)

/-- `eval_subexpr`: evaluate an operand, then run the operator loop. -/
def eval_subexpr : Nat → List Token → Except EvalError (Int × List Token)
  | 0, _ => .error .outOfFuel
  | fuel + 1, ts =>
    match eval_operand fuel ts with
    | .error e => .error e
    | .ok (v, rest) => eval_subexpr_loop fuel v rest

/-- The `while let Some(peeked)` loop of `eval_subexpr`: stop consuming the
`RParen` when one is peeked, stop without failing when the stream ends,
otherwise fold one `eval_operation` into the running value. -/
def eval_subexpr_loop : Nat → Int → List Token → Except EvalError (Int × List Token)
  | 0, _, _ => .error .outOfFuel
  | _ + 1, current, [] => .ok (current, [])
  | _ + 1, current, .rparen :: rest => .ok (current, rest)
  | fuel + 1, current, ts =>
    match eval_operation fuel current ts with
    | .error e => .error e
    | .ok (v, rest) => eval_subexpr_loop fuel v rest

/-- `eval_operation`: consume the operation token, evaluate the right operand,
then apply `+` or `*`; a non-operator token is fatal (after the right operand
has been evaluated, as in the source). -/
def eval_operation : Nat → Int → List Token → Except EvalError (Int × List Token)
  | 0, _, _ => .error .outOfFuel
  | _ + 1, _, [] => .error .unexpectedEndOfInput
  | fuel + 1, loper, op :: rest =>
    match eval_operand fuel rest with
    | .error e => .error e
    | .ok (roper, rest2) =>
      match op with
      | .add => .ok (loper + roper, rest2)
      | .mul => .ok (loper * roper, rest2)
      | other => .error (.illegalOperatorToken other)

/-- The `while tokens.peek().is_some()` loop of `_eval`: fold operations until
the stream is exhausted (no `RParen` case at top level). -/
def eval_loop : Nat → Int → List Token → Except EvalError Int
  | 0, _, _ => .error .outOfFuel
  | _ + 1, current, [] => .ok current
  | fuel + 1, current, ts =>
    match eval_operation fuel current ts with
    | .error e => .error e
    | .ok (v, rest) => eval_loop fuel v rest

end

/-- `_eval`: evaluate an operand then fold operations until exhaustion. -/
def _eval (fuel : Nat) (ts : List Token) : Except EvalError Int :=
  match eval_operand fuel ts with
  | .error e => .error e
  | .ok (v, rest) => eval_loop fuel v rest

mutual

/-- `fval_loperand`: same shape as `eval_operand` but subexpressions use the
precedence evaluator. -/
def fval_loperand : Nat → List Token → Except EvalError (Int × List Token)
  | 0, _ => .error .outOfFuel
  | _ + 1, [] => .error .unexpectedEndOfInput
  | _ + 1, .int n :: rest => .ok (n, rest)
  | fuel + 1, .lparen :: rest => fval_subexpr fuel rest
  | _ + 1, t :: _ => .error (.illegalOperandToken t)

/-- `fval_roperand`: evaluate one immediate operand exactly as `fval_loperand`
does, then, if an `Add` is peeked, consume it and fold
`roper + fval_roperand rest` (the body of `fval_addition`); otherwise return
the operand unchanged. -/
def fval_roperand : Nat → List Token → Except EvalError (Int × List Token)
  | 0, _ => .error .outOfFuel
  | fuel + 1, ts =>
    let operandResult : Except EvalError (Int × List Token) :=
      match ts with
      | [] => .error .unexpectedEndOfInput
      | .int n :: rest => .ok (n, rest)
      | .lparen :: rest => fval_subexpr fuel rest
      | t :: _ => .error (.illegalOperandToken t)
    match operandResult with
    | .error e => .error e
    | .ok (roper, rest) =>
      match rest with
      | .add :: rest2 =>
        match fval_roperand fuel rest2 with
        | .error e => .error e
        | .ok (radd, rest3) => .ok (roper + radd, rest3)
      | _ => .ok (roper, rest)

/-- `fval_subexpr`: evaluate an `fval_loperand`, then run the operator loop. -/
def fval_subexpr : Nat → List Token → Except EvalError (Int × List Token)
  | 0, _ => .error .outOfFuel
  | fuel + 1, ts =>
    match fval_loperand fuel ts with
    | .error e => .error e
    | .ok (v, rest) => fval_subexpr_loop fuel v rest

/-- The `while let Some(peeked)` loop of `fval_subexpr`. -/
def fval_subexpr_loop : Nat → Int → List Token → Except EvalError (Int × List Token)
  | 0, _, _ => .error .outOfFuel
  | _ + 1, current, [] => .ok (current, [])
  | _ + 1, current, .rparen :: rest => .ok (current, rest)
  | fuel + 1, current, ts =>
    match fval_operation fuel current ts with
    | .error e => .error e
    | .ok (v, rest) => fval_subexpr_loop fuel v rest

/-- `fval_operation`: like `eval_operation` but the right operand is an
`fval_roperand`, which absorbs a trailing addition chain. -/
def fval_operation : Nat → Int → List Token → Except EvalError (Int × List Token)
  | 0, _, _ => .error .outOfFuel
  | _ + 1, _, [] => .error .unexpectedEndOfInput
  | fuel + 1, loper, op :: rest =>
    match fval_roperand fuel rest with
    | .error e => .error e
    | .ok (roper, rest2) =>
      match op with
      | .add => .ok (loper + roper, rest2)
      | .mul => .ok (loper * roper, rest2)
      | other => .error (.illegalOperatorToken other)

/-- The `while tokens.peek().is_some()` loop of `_fval`. -/
def fval_loop : Nat → Int → List Token → Except EvalError Int
  | 0, _, _ => .error .outOfFuel
  | _ + 1, current, [] => .ok current
  | fuel + 1, current, ts =>
    match fval_operation fuel current ts with
    | .error e => .error e
    | .ok (v, rest) => fval_loop fuel v rest

end

/-- `fval_addition`: `loper + fval_roperand(tokens)`. -/
def fval_addition (fuel : Nat) (loper : Int) (ts : List Token) :
    Except EvalError (Int × List Token) :=
  match fval_roperand fuel ts with
  | .error e => .error e
  | .ok (radd, rest) => .ok (loper + radd, rest)

/-- `_fval`: evaluate an `fval_loperand` then fold operations until
exhaustion. -/
def _fval (fuel : Nat) (ts : List Token) : Except EvalError Int :=
  match fval_loperand fuel ts with
  | .error e => .error e
  | .ok (v, rest) => fval_loop fuel v rest

/-- Fuel that always suffices for a token list (proved below). -/
def fuelFor (ts : List Token) : Nat := 2 * ts.length + 2

/-- `eval` (the spec's `evaluate_flat`): tokenize, then `_eval`; `none` models
the tokenizer's parse panic. -/
def eval (s : List Char) : Option (Except EvalError Int) :=
  (tokenize s).map fun ts => _eval (fuelFor ts) ts

/-- `fval` (the spec's `evaluate_with_precedence`): tokenize, then `_fval`. -/
def fval (s : List Char) : Option (Except EvalError Int) :=
  (tokenize s).map fun ts => _fval (fuelFor ts) ts

/-- A decimal digit is none of the four operator and delimiter characters. -/
theorem isDigitChar_ne_special (c : Char) (h : isDigitChar c = true) :
    c ≠ '+' ∧ c ≠ '*' ∧ c ≠ '(' ∧ c ≠ ')' := by
  refine ⟨?_, ?_, ?_, ?_⟩ <;> · intro h'; subst h'; revert h; decide

/-- Unfolding `tokenize` on the empty source. -/
theorem tokenize_nil : tokenize [] = some [] := by
  simp [tokenize]

/-- Unfolding `tokenize` on a leading plus sign. -/
theorem tokenize_cons_add (cs : List Char) :
    tokenize ('+' :: cs) = (tokenize cs).map (Token.add :: ·) := by
  simp [tokenize]

/-- Unfolding `tokenize` on a leading star. -/
theorem tokenize_cons_mul (cs : List Char) :
    tokenize ('*' :: cs) = (tokenize cs).map (Token.mul :: ·) := by
  simp [tokenize]

/-- Unfolding `tokenize` on a leading opening parenthesis. -/
theorem tokenize_cons_lparen (cs : List Char) :
    tokenize ('(' :: cs) = (tokenize cs).map (Token.lparen :: ·) := by
  simp [tokenize]

/-- Unfolding `tokenize` on a leading closing parenthesis. -/
theorem tokenize_cons_rparen (cs : List Char) :
    tokenize (')' :: cs) = (tokenize cs).map (Token.rparen :: ·) := by
  simp [tokenize]

/-- Unfolding `tokenize` on a leading digit: the whole digit run is consumed
and parsed. -/
theorem tokenize_cons_digit (c : Char) (cs : List Char) (h : isDigitChar c = true) :
    tokenize (c :: cs) =
      if digitsToNat (c :: cs.takeWhile isDigitChar) ≤ i64Max then
        (tokenize (cs.dropWhile isDigitChar)).map
          (Token.int (digitsToNat (c :: cs.takeWhile isDigitChar)) :: ·)
      else none := by
  obtain ⟨h1, h2, h3, h4⟩ := isDigitChar_ne_special c h
  rw [tokenize]
  simp [h1, h2, h3, h4, h]

/-- Unfolding `tokenize` on any other leading character: it is skipped. -/
theorem tokenize_cons_skip (c : Char) (cs : List Char)
    (h1 : c ≠ '+') (h2 : c ≠ '*') (h3 : c ≠ '(') (h4 : c ≠ ')')
    (h5 : isDigitChar c = false) :
    tokenize (c :: cs) = tokenize cs := by
  rw [tokenize]
  simp [h1, h2, h3, h4, h5]

/-- Appending past an all-satisfying prefix commutes with `takeWhile`. -/
theorem takeWhile_append_all (p : Char → Bool) (ds l : List Char)
    (h : ∀ c ∈ ds, p c = true) :
    (ds ++ l).takeWhile p = ds ++ l.takeWhile p := by
  induction ds with
  | nil => simp
  | cons d ds ih =>
    have hd : p d = true := h d (List.mem_cons_self d ds)
    simp only [List.cons_append, List.takeWhile_cons, hd, if_true]
    rw [ih fun c hc => h c (List.mem_cons_of_mem d hc)]

/-- Appending past an all-satisfying prefix commutes with `dropWhile`. -/
theorem dropWhile_append_all (p : Char → Bool) (ds l : List Char)
    (h : ∀ c ∈ ds, p c = true) :
    (ds ++ l).dropWhile p = l.dropWhile p := by
  induction ds with
  | nil => simp
  | cons d ds ih =>
    have hd : p d = true := h d (List.mem_cons_self d ds)
    simp only [List.cons_append, List.dropWhile_cons, hd, if_true]
    exact ih fun c hc => h c (List.mem_cons_of_mem d hc)

/-- `takeWhile` keeps an all-satisfying list whole. -/
theorem takeWhile_all (p : Char → Bool) (l : List Char) (h : ∀ c ∈ l, p c = true) :
    l.takeWhile p = l := by
  have := takeWhile_append_all p l [] h
  simpa using this

/-- `dropWhile` empties an all-satisfying list. -/
theorem dropWhile_all (p : Char → Bool) (l : List Char) (h : ∀ c ∈ l, p c = true) :
    l.dropWhile p = [] := by
  have := dropWhile_append_all p l [] h
  simpa using this

/-- The head surviving `dropWhile` falsifies the predicate. -/
theorem dropWhile_head_false (p : Char → Bool) :
    ∀ (l : List Char) (c : Char) (rest : List Char),
      l.dropWhile p = c :: rest → p c = false := by
  intro l
  induction l with
  | nil => intro c rest h; simp [List.dropWhile] at h
  | cons d ds ih =>
    intro c rest h
    rw [List.dropWhile_cons] at h
    by_cases hd : p d = true
    · rw [if_pos hd] at h
      exact ih c rest h
    · rw [if_neg hd] at h
      cases h
      exact Bool.not_eq_true _ |>.mp hd

/-- One step of the flat subexpression loop when the stream neither ends nor
peeks a closing parenthesis. -/
theorem eval_subexpr_loop_step (fuel : Nat) (cur : Int) (ts : List Token)
    (hne : ts ≠ []) (hrp : ts.head? ≠ some Token.rparen) :
    eval_subexpr_loop (fuel + 1) cur ts =
      match eval_operation fuel cur ts with
      | .error e => .error e
      | .ok (v, rest) => eval_subexpr_loop fuel v rest := by
  match ts with
  | [] => exact absurd rfl hne
  | .rparen :: r => simp at hrp
  | .int n :: r => rfl
  | .add :: r => rfl
  | .mul :: r => rfl
  | .lparen :: r => rfl

/-- One step of the flat top-level loop on a nonempty stream. -/
theorem eval_loop_step (fuel : Nat) (cur : Int) (ts : List Token) (hne : ts ≠ []) :
    eval_loop (fuel + 1) cur ts =
      match eval_operation fuel cur ts with
      | .error e => .error e
      | .ok (v, rest) => eval_loop fuel v rest := by
  match ts with
  | [] => exact absurd rfl hne
  | .rparen :: r => rfl
  | .int n :: r => rfl
  | .add :: r => rfl
  | .mul :: r => rfl
  | .lparen :: r => rfl

/-- One step of the precedence subexpression loop when the stream neither ends
nor peeks a closing parenthesis. -/
theorem fval_subexpr_loop_step (fuel : Nat) (cur : Int) (ts : List Token)
    (hne : ts ≠ []) (hrp : ts.head? ≠ some Token.rparen) :
    fval_subexpr_loop (fuel + 1) cur ts =
      match fval_operation fuel cur ts with
      | .error e => .error e
      | .ok (v, rest) => fval_subexpr_loop fuel v rest := by
  match ts with
  | [] => exact absurd rfl hne
  | .rparen :: r => simp at hrp
  | .int n :: r => rfl
  | .add :: r => rfl
  | .mul :: r => rfl
  | .lparen :: r => rfl

/-- One step of the precedence top-level loop on a nonempty stream. -/
theorem fval_loop_step (fuel : Nat) (cur : Int) (ts : List Token) (hne : ts ≠ []) :
    fval_loop (fuel + 1) cur ts =
      match fval_operation fuel cur ts with
      | .error e => .error e
      | .ok (v, rest) => fval_loop fuel v rest := by
  match ts with
  | [] => exact absurd rfl hne
  | .rparen :: r => rfl
  | .int n :: r => rfl
  | .add :: r => rfl
  | .mul :: r => rfl
  | .lparen :: r => rfl

/-- A result of an evaluator helper is acceptable when an `ok` remainder
satisfies `P` and an error is a genuine evaluation error, not the fuel
artifact. -/
def ResOk (r : Except EvalError (Int × List Token)) (P : List Token → Prop) : Prop :=
  match r with
  | .ok (_, rest) => P rest
  | .error e => e ≠ .outOfFuel

/-- A top-level result is acceptable when any error is a genuine evaluation
error. -/
def ValOk (r : Except EvalError Int) : Prop :=
  match r with
  | .ok _ => True
  | .error e => e ≠ .outOfFuel

/-- Weakening the remainder predicate of `ResOk`. -/
theorem ResOk.mono {r : Except EvalError (Int × List Token)} {P Q : List Token → Prop}
    (h : ResOk r P) (hPQ : ∀ rest, P rest → Q rest) : ResOk r Q := by
  match r with
  | .ok (v, rest) => exact hPQ rest h
  | .error e => exact h

/-- Whenever a flat-evaluator helper returns, the unconsumed remainder is a
suffix of the tokens it was given (the stream is single-pass). -/
theorem flat_suffix : ∀ fuel : Nat,
    (∀ ts v rest, eval_operand fuel ts = .ok (v, rest) → rest <:+ ts) ∧
    (∀ ts v rest, eval_subexpr fuel ts = .ok (v, rest) → rest <:+ ts) ∧
    (∀ cur ts v rest, eval_subexpr_loop fuel cur ts = .ok (v, rest) → rest <:+ ts) ∧
    (∀ l ts v rest, eval_operation fuel l ts = .ok (v, rest) → rest <:+ ts) := by
  intro fuel
  induction fuel with
  | zero =>
    refine ⟨?_, ?_, ?_, ?_⟩ <;> intro _ _ <;> intros <;> simp_all [eval_operand,
      eval_subexpr, eval_subexpr_loop, eval_operation]
  | succ fuel ih =>
    obtain ⟨ihOperand, ihSubexpr, ihLoop, ihOperation⟩ := ih
    refine ⟨?_, ?_, ?_, ?_⟩
    · intro ts v rest h
      match ts with
      | [] => simp [eval_operand] at h
      | .int n :: r =>
        simp only [eval_operand, Except.ok.injEq, Prod.mk.injEq] at h
        rw [← h.2]
        exact List.suffix_cons _ _
      | .lparen :: r =>
        simp only [eval_operand] at h
        exact (ihSubexpr r v rest h).trans (List.suffix_cons _ _)
      | .add :: r => simp [eval_operand] at h
      | .mul :: r => simp [eval_operand] at h
      | .rparen :: r => simp [eval_operand] at h
    · intro ts v rest h
      simp only [eval_subexpr] at h
      cases hop : eval_operand fuel ts with
      | error e => rw [hop] at h; simp at h
      | ok p =>
        obtain ⟨v1, rest1⟩ := p
        rw [hop] at h
        simp only at h
        exact (ihLoop v1 rest1 v rest h).trans (ihOperand ts v1 rest1 hop)
    · intro cur ts v rest h
      match ts with
      | [] =>
        simp only [eval_subexpr_loop, Except.ok.injEq, Prod.mk.injEq] at h
        rw [← h.2]
      | .rparen :: r =>
        simp only [eval_subexpr_loop, Except.ok.injEq, Prod.mk.injEq] at h
        rw [← h.2]
        exact List.suffix_cons _ _
      | .int n :: r | .add :: r | .mul :: r | .lparen :: r =>
        rw [eval_subexpr_loop_step fuel cur _ (by simp) (by simp)] at h
        revert h
        cases hop : eval_operation fuel cur _ with
        | error e => intro h; simp at h
        | ok p =>
          obtain ⟨v1, rest1⟩ := p
          intro h
          simp only at h
          exact (ihLoop v1 rest1 v rest h).trans (ihOperation cur _ v1 rest1 hop)
    · intro l ts v rest h
      match ts with
      | [] => simp [eval_operation] at h
      | op :: r =>
        simp only [eval_operation] at h
        revert h
        cases hop : eval_operand fuel r with
        | error e => intro h; simp at h
        | ok p =>
          obtain ⟨v1, rest1⟩ := p
          intro h
          have hsuf : rest1 <:+ op :: r :=
            (ihOperand r v1 rest1 hop).trans (List.suffix_cons _ _)
          cases op with
          | add =>
            simp only [Except.ok.injEq, Prod.mk.injEq] at h
            rw [← h.2]
            exact hsuf
          | mul =>
            simp only [Except.ok.injEq, Prod.mk.injEq] at h
            rw [← h.2]
            exact hsuf
          | int n => simp at h
          | lparen => simp at h
          | rparen => simp at h

/-- Fuel sufficiency for the flat evaluator: with fuel at least
`2 * length + 1` (operand and operation) or `2 * length + 2` (subexpression
and loops), a helper never hits the fuel artifact, and each returned
remainder is shorter according to how many tokens the helper must consume. -/
theorem flat_fuel : ∀ fuel : Nat,
    (∀ ts, 2 * ts.length + 1 ≤ fuel →
      ResOk (eval_operand fuel ts) (fun rest => rest.length < ts.length)) ∧
    (∀ ts, 2 * ts.length + 2 ≤ fuel →
      ResOk (eval_subexpr fuel ts) (fun rest => rest.length < ts.length)) ∧
    (∀ cur ts, 2 * ts.length + 2 ≤ fuel →
      ResOk (eval_subexpr_loop fuel cur ts) (fun rest => rest.length ≤ ts.length)) ∧
    (∀ l ts, 2 * ts.length + 1 ≤ fuel →
      ResOk (eval_operation fuel l ts) (fun rest => rest.length + 2 ≤ ts.length)) ∧
    (∀ cur ts, 2 * ts.length + 2 ≤ fuel → ValOk (eval_loop fuel cur ts)) := by
  intro fuel
  induction fuel with
  | zero =>
    refine ⟨?_, ?_, ?_, ?_, ?_⟩ <;> intro _ _ <;> intros <;> omega
  | succ fuel ih =>
    obtain ⟨ihOperand, ihSubexpr, ihLoop, ihOperation, ihTop⟩ := ih
    refine ⟨?_, ?_, ?_, ?_, ?_⟩
    · intro ts hfuel
      match ts with
      | [] => simp [eval_operand, ResOk]
      | .int n :: r => simp [eval_operand, ResOk]
      | .lparen :: r =>
        show ResOk (eval_subexpr fuel r) _
        refine (ihSubexpr r (by simp at hfuel ⊢; omega)).mono ?_
        intro rest hrest
        simp
        omega
      | .add :: r => simp [eval_operand, ResOk]
      | .mul :: r => simp [eval_operand, ResOk]
      | .rparen :: r => simp [eval_operand, ResOk]
    · intro ts hfuel
      show ResOk (match eval_operand fuel ts with
        | .error e => .error e
        | .ok (v, rest) => eval_subexpr_loop fuel v rest) _
      have hop := ihOperand ts (by omega)
      cases hOp : eval_operand fuel ts with
      | error e => rw [hOp] at hop; exact hop
      | ok p =>
        obtain ⟨v1, rest1⟩ := p
        rw [hOp] at hop
        simp only [ResOk] at hop
        refine (ihLoop v1 rest1 (by omega)).mono ?_
        intro rest hrest
        omega
    · intro cur ts hfuel
      match ts with
      | [] => simp [eval_subexpr_loop, ResOk]
      | .rparen :: r => simp [eval_subexpr_loop, ResOk]
      | t :: r =>
        simp only [List.length_cons] at hfuel
        by_cases hrp : t = Token.rparen
        · subst hrp
          simp [eval_subexpr_loop, ResOk]
        · rw [eval_subexpr_loop_step fuel cur (t :: r) (by simp) (by simp [hrp])]
          have hop := ihOperation cur (t :: r) (by simp; omega)
          revert hop
          cases hOp : eval_operation fuel cur (t :: r) with
          | error e => intro hop; exact hop
          | ok p =>
            obtain ⟨v1, rest1⟩ := p
            intro hop
            simp only [ResOk, List.length_cons] at hop
            refine (ihLoop v1 rest1 (by omega)).mono ?_
            intro rest hrest
            simp
            omega
    · intro l ts hfuel
      match ts with
      | [] => simp [eval_operation, ResOk]
      | op :: r =>
        simp only [List.length_cons] at hfuel
        have hop := ihOperand r (by omega)
        cases hOp : eval_operand fuel r with
        | error e =>
          rw [hOp] at hop
          simp [eval_operation, hOp, ResOk]
          exact hop
        | ok p =>
          obtain ⟨v1, rest1⟩ := p
          rw [hOp] at hop
          simp only [ResOk] at hop
          cases op <;> simp [eval_operation, hOp, ResOk] <;> omega
    · intro cur ts hfuel
      match ts with
      | [] => simp [eval_loop, ValOk]
      | t :: r =>
        simp only [List.length_cons] at hfuel
        rw [eval_loop_step fuel cur (t :: r) (by simp)]
        have hop := ihOperation cur (t :: r) (by simp; omega)
        revert hop
        cases hOp : eval_operation fuel cur (t :: r) with
        | error e => intro hop; exact hop
        | ok p =>
          obtain ⟨v1, rest1⟩ := p
          intro hop
          simp only [ResOk, List.length_cons] at hop
          exact ihTop v1 rest1 (by omega)

/-- The continuation run by `fval_roperand` after its immediate operand has
been evaluated: peek for an `Add`, and on one consume it and fold the
recursive right operand; otherwise return the operand unchanged. -/
def roperandCont (fuel : Nat) (v : Int) (rest : List Token) :
    Except EvalError (Int × List Token) :=
  match rest with
  | .add :: rest2 =>
    (match fval_roperand fuel rest2 with
     | .error e => .error e
     | .ok (radd, rest3) => .ok (v + radd, rest3))
  | _ => .ok (v, rest)

/-- The immediate-operand phase of `fval_roperand` is exactly
`fval_loperand`: when it succeeds, `fval_roperand` continues with
`roperandCont`. -/
theorem fval_roperand_of_loperand_ok (fuel : Nat) (ts : List Token) (v : Int)
    (rest : List Token) (h : fval_loperand (fuel + 1) ts = .ok (v, rest)) :
    fval_roperand (fuel + 1) ts = roperandCont fuel v rest := by
  match ts with
  | [] => simp [fval_loperand] at h
  | .int n :: r =>
    simp only [fval_loperand, Except.ok.injEq, Prod.mk.injEq] at h
    obtain ⟨hv, hr⟩ := h
    subst hv
    subst hr
    rfl
  | .lparen :: r =>
    simp only [fval_loperand] at h
    have hbody : fval_roperand (fuel + 1) (.lparen :: r) =
        match fval_subexpr fuel r with
        | .error e => .error e
        | .ok (roper, rest1) => roperandCont fuel roper rest1 := rfl
    rw [hbody, h]
  | .add :: r => simp [fval_loperand] at h
  | .mul :: r => simp [fval_loperand] at h
  | .rparen :: r => simp [fval_loperand] at h

/-- When the immediate-operand phase of `fval_roperand` fails, `fval_roperand`
propagates exactly that error. -/
theorem fval_roperand_of_loperand_err (fuel : Nat) (ts : List Token)
    (e : EvalError) (h : fval_loperand (fuel + 1) ts = .error e) :
    fval_roperand (fuel + 1) ts = .error e := by
  match ts with
  | [] =>
    simp only [fval_loperand, Except.error.injEq] at h
    subst h
    rfl
  | .int n :: r => simp [fval_loperand] at h
  | .lparen :: r =>
    simp only [fval_loperand] at h
    have hbody : fval_roperand (fuel + 1) (.lparen :: r) =
        match fval_subexpr fuel r with
        | .error e => .error e
        | .ok (roper, rest1) => roperandCont fuel roper rest1 := rfl
    rw [hbody, h]
  | .add :: r =>
    simp only [fval_loperand, Except.error.injEq] at h
    subst h
    rfl
  | .mul :: r =>
    simp only [fval_loperand, Except.error.injEq] at h
    subst h
    rfl
  | .rparen :: r =>
    simp only [fval_loperand, Except.error.injEq] at h
    subst h
    rfl

/-- Fuel sufficiency for the precedence evaluator, in the same format as
`flat_fuel`. -/
theorem fval_fuel : ∀ fuel : Nat,
    (∀ ts, 2 * ts.length + 1 ≤ fuel →
      ResOk (fval_loperand fuel ts) (fun rest => rest.length < ts.length)) ∧
    (∀ ts, 2 * ts.length + 1 ≤ fuel →
      ResOk (fval_roperand fuel ts) (fun rest => rest.length < ts.length)) ∧
    (∀ ts, 2 * ts.length + 2 ≤ fuel →
      ResOk (fval_subexpr fuel ts) (fun rest => rest.length < ts.length)) ∧
    (∀ cur ts, 2 * ts.length + 2 ≤ fuel →
      ResOk (fval_subexpr_loop fuel cur ts) (fun rest => rest.length ≤ ts.length)) ∧
    (∀ l ts, 2 * ts.length + 1 ≤ fuel →
      ResOk (fval_operation fuel l ts) (fun rest => rest.length + 2 ≤ ts.length)) ∧
    (∀ cur ts, 2 * ts.length + 2 ≤ fuel → ValOk (fval_loop fuel cur ts)) := by
  intro fuel
  induction fuel with
  | zero =>
    refine ⟨?_, ?_, ?_, ?_, ?_, ?_⟩ <;> intro _ _ <;> intros <;> omega
  | succ fuel ih =>
    obtain ⟨ihLoperand, ihRoperand, ihSubexpr, ihLoop, ihOperation, ihTop⟩ := ih
    have hLoperand : ∀ ts, 2 * ts.length + 1 ≤ fuel + 1 →
        ResOk (fval_loperand (fuel + 1) ts) (fun rest => rest.length < ts.length) := by
      intro ts hfuel
      match ts with
      | [] => simp [fval_loperand, ResOk]
      | .int n :: r => simp [fval_loperand, ResOk]
      | .lparen :: r =>
        simp only [List.length_cons] at hfuel
        show ResOk (fval_subexpr fuel r) _
        refine (ihSubexpr r (by omega)).mono ?_
        intro rest hrest
        simp
        omega
      | .add :: r => simp [fval_loperand, ResOk]
      | .mul :: r => simp [fval_loperand, ResOk]
      | .rparen :: r => simp [fval_loperand, ResOk]
    refine ⟨hLoperand, ?_, ?_, ?_, ?_, ?_⟩
    · intro ts hfuel
      have hlopOk := hLoperand ts hfuel
      cases hlop : fval_loperand (fuel + 1) ts with
      | error e =>
        rw [fval_roperand_of_loperand_err fuel ts e hlop]
        rw [hlop] at hlopOk
        exact hlopOk
      | ok p =>
        obtain ⟨v, rest⟩ := p
        rw [fval_roperand_of_loperand_ok fuel ts v rest hlop]
        rw [hlop] at hlopOk
        simp only [ResOk] at hlopOk
        match rest, hlopOk with
        | [], hlopOk => exact hlopOk
        | t2 :: r2, hlopOk =>
          cases t2 with
          | add =>
            simp only [List.length_cons] at hlopOk
            have hrec := ihRoperand r2 (by omega)
            show ResOk (match fval_roperand fuel r2 with
              | .error e => .error e
              | .ok (radd, rest3) => .ok (v + radd, rest3)) _
            revert hrec
            cases hr : fval_roperand fuel r2 with
            | error e => intro hrec; exact hrec
            | ok q =>
              obtain ⟨radd, rest3⟩ := q
              intro hrec
              simp only [ResOk] at hrec ⊢
              omega
          | int m => exact hlopOk
          | mul => exact hlopOk
          | lparen => exact hlopOk
          | rparen => exact hlopOk
    · intro ts hfuel
      show ResOk (match fval_loperand fuel ts with
        | .error e => .error e
        | .ok (v, rest) => fval_subexpr_loop fuel v rest) _
      have hop := ihLoperand ts (by omega)
      cases hOp : fval_loperand fuel ts with
      | error e => rw [hOp] at hop; exact hop
      | ok p =>
        obtain ⟨v1, rest1⟩ := p
        rw [hOp] at hop
        simp only [ResOk] at hop
        refine (ihLoop v1 rest1 (by omega)).mono ?_
        intro rest hrest
        omega
    · intro cur ts hfuel
      match ts with
      | [] => simp [fval_subexpr_loop, ResOk]
      | t :: r =>
        simp only [List.length_cons] at hfuel
        by_cases hrp : t = Token.rparen
        · subst hrp
          simp [fval_subexpr_loop, ResOk]
        · rw [fval_subexpr_loop_step fuel cur (t :: r) (by simp) (by simp [hrp])]
          have hop := ihOperation cur (t :: r) (by simp; omega)
          revert hop
          cases hOp : fval_operation fuel cur (t :: r) with
          | error e => intro hop; exact hop
          | ok p =>
            obtain ⟨v1, rest1⟩ := p
            intro hop
            simp only [ResOk, List.length_cons] at hop
            refine (ihLoop v1 rest1 (by omega)).mono ?_
            intro rest hrest
            simp
            omega
    · intro l ts hfuel
      match ts with
      | [] => simp [fval_operation, ResOk]
      | op :: r =>
        simp only [List.length_cons] at hfuel
        have hop := ihRoperand r (by omega)
        cases hOp : fval_roperand fuel r with
        | error e =>
          rw [hOp] at hop
          simp [fval_operation, hOp, ResOk]
          exact hop
        | ok p =>
          obtain ⟨v1, rest1⟩ := p
          rw [hOp] at hop
          simp only [ResOk] at hop
          cases op <;> simp [fval_operation, hOp, ResOk] <;> omega
    · intro cur ts hfuel
      match ts with
      | [] => simp [fval_loop, ValOk]
      | t :: r =>
        simp only [List.length_cons] at hfuel
        rw [fval_loop_step fuel cur (t :: r) (by simp)]
        have hop := ihOperation cur (t :: r) (by simp; omega)
        revert hop
        cases hOp : fval_operation fuel cur (t :: r) with
        | error e => intro hop; exact hop
        | ok p =>
          obtain ⟨v1, rest1⟩ := p
          intro hop
          simp only [ResOk, List.length_cons] at hop
          exact ihTop v1 rest1 (by omega)

/-- `ValOk` unfolded: the result is not the fuel artifact. -/
theorem ValOk_iff (r : Except EvalError Int) :
    ValOk r ↔ r ≠ .error .outOfFuel := by
  match r with
  | .ok v => simp [ValOk]
  | .error e => simp [ValOk]

/-- At fuel `fuelFor ts`, `_eval` never hits the fuel artifact. -/
theorem _eval_valOk (ts : List Token) : ValOk (_eval (fuelFor ts) ts) := by
  have hop := (flat_fuel (fuelFor ts)).1 ts (by simp only [fuelFor]; omega)
  show ValOk (match eval_operand (fuelFor ts) ts with
    | .error e => .error e
    | .ok (v, rest) => eval_loop (fuelFor ts) v rest)
  revert hop
  cases hOp : eval_operand (fuelFor ts) ts with
  | error e => intro hop; exact hop
  | ok p =>
    obtain ⟨v, rest⟩ := p
    intro hop
    simp only [ResOk] at hop
    exact (flat_fuel (fuelFor ts)).2.2.2.2 v rest (by simp only [fuelFor]; omega)

/-- At fuel `fuelFor ts`, `_fval` never hits the fuel artifact. -/
theorem _fval_valOk (ts : List Token) : ValOk (_fval (fuelFor ts) ts) := by
  have hop := (fval_fuel (fuelFor ts)).1 ts (by simp only [fuelFor]; omega)
  show ValOk (match fval_loperand (fuelFor ts) ts with
    | .error e => .error e
    | .ok (v, rest) => fval_loop (fuelFor ts) v rest)
  revert hop
  cases hOp : fval_loperand (fuelFor ts) ts with
  | error e => intro hop; exact hop
  | ok p =>
    obtain ⟨v, rest⟩ := p
    intro hop
    simp only [ResOk] at hop
    exact (fval_fuel (fuelFor ts)).2.2.2.2.2 v rest (by simp only [fuelFor]; omega)

/-- On token streams with no `Add` token, every precedence-evaluator helper
coincides with its flat counterpart: `fval_roperand` never sees a peeked
`Add`, so the recursive addition fold is never taken. -/
theorem noadd_master : ∀ fuel : Nat,
    (∀ ts, Token.add ∉ ts → fval_loperand fuel ts = eval_operand fuel ts) ∧
    (∀ ts, Token.add ∉ ts → fval_roperand fuel ts = eval_operand fuel ts) ∧
    (∀ ts, Token.add ∉ ts → fval_subexpr fuel ts = eval_subexpr fuel ts) ∧
    (∀ cur ts, Token.add ∉ ts →
      fval_subexpr_loop fuel cur ts = eval_subexpr_loop fuel cur ts) ∧
    (∀ l ts, Token.add ∉ ts → fval_operation fuel l ts = eval_operation fuel l ts) ∧
    (∀ cur ts, Token.add ∉ ts → fval_loop fuel cur ts = eval_loop fuel cur ts) := by
  intro fuel
  induction fuel with
  | zero =>
    refine ⟨?_, ?_, ?_, ?_, ?_, ?_⟩ <;> intro _ _ <;> intros <;> rfl
  | succ fuel ih =>
    obtain ⟨ihLoperand, ihRoperand, ihSubexpr, ihLoop, ihOperation, ihTop⟩ := ih
    have hLoperand : ∀ ts, Token.add ∉ ts →
        fval_loperand (fuel + 1) ts = eval_operand (fuel + 1) ts := by
      intro ts hna
      match ts with
      | [] => rfl
      | .int n :: r => rfl
      | .lparen :: r =>
        show fval_subexpr fuel r = eval_subexpr fuel r
        exact ihSubexpr r fun hmem => hna (List.mem_cons_of_mem _ hmem)
      | .add :: r => exact absurd (List.mem_cons_self _ _) hna
      | .mul :: r => rfl
      | .rparen :: r => rfl
    refine ⟨hLoperand, ?_, ?_, ?_, ?_, ?_⟩
    · intro ts hna
      cases hlop : fval_loperand (fuel + 1) ts with
      | error e =>
        rw [fval_roperand_of_loperand_err fuel ts e hlop, ← hlop, hLoperand ts hna]
      | ok p =>
        obtain ⟨v, rest⟩ := p
        rw [fval_roperand_of_loperand_ok fuel ts v rest hlop]
        have heval : eval_operand (fuel + 1) ts = .ok (v, rest) := by
          rw [← hLoperand ts hna]; exact hlop
        have hsuf : rest <:+ ts := (flat_suffix (fuel + 1)).1 ts v rest heval
        rw [heval]
        match rest, hsuf with
        | [], hsuf => rfl
        | t2 :: r2, hsuf =>
          cases t2 with
          | add => exact absurd (hsuf.mem (List.mem_cons_self _ _)) hna
          | int m => rfl
          | mul => rfl
          | lparen => rfl
          | rparen => rfl
    · intro ts hna
      show (match fval_loperand fuel ts with
        | .error e => Except.error e
        | .ok (v, rest) => fval_subexpr_loop fuel v rest) =
        (match eval_operand fuel ts with
        | .error e => Except.error e
        | .ok (v, rest) => eval_subexpr_loop fuel v rest)
      rw [ihLoperand ts hna]
      cases hop : eval_operand fuel ts with
      | error e => rfl
      | ok p =>
        obtain ⟨v, rest⟩ := p
        have hsuf : rest <:+ ts := (flat_suffix fuel).1 ts v rest hop
        exact ihLoop v rest fun hmem => hna (hsuf.mem hmem)
    · intro cur ts hna
      match ts with
      | [] => rfl
      | t :: r =>
        by_cases hrp : t = Token.rparen
        · subst hrp; rfl
        · rw [fval_subexpr_loop_step fuel cur (t :: r) (by simp) (by simp [hrp]),
            eval_subexpr_loop_step fuel cur (t :: r) (by simp) (by simp [hrp]),
            ihOperation cur (t :: r) hna]
          cases hop : eval_operation fuel cur (t :: r) with
          | error e => rfl
          | ok p =>
            obtain ⟨v, rest⟩ := p
            have hsuf : rest <:+ t :: r := (flat_suffix fuel).2.2.2 cur _ v rest hop
            exact ihLoop v rest fun hmem => hna (hsuf.mem hmem)
    · intro l ts hna
      match ts with
      | [] => rfl
      | op :: r =>
        have hna2 : Token.add ∉ r := fun hmem => hna (List.mem_cons_of_mem _ hmem)
        clear hna
        show (match fval_roperand fuel r with
          | .error e => Except.error e
          | .ok (roper, rest2) =>
            match op with
            | .add => Except.ok (l + roper, rest2)
            | .mul => Except.ok (l * roper, rest2)
            | other => Except.error (.illegalOperatorToken other)) =
          (match eval_operand fuel r with
          | .error e => Except.error e
          | .ok (roper, rest2) =>
            match op with
            | .add => Except.ok (l + roper, rest2)
            | .mul => Except.ok (l * roper, rest2)
            | other => Except.error (.illegalOperatorToken other))
        rw [ihRoperand r hna2]
    · intro cur ts hna
      match ts with
      | [] => rfl
      | t :: r =>
        rw [fval_loop_step fuel cur (t :: r) (by simp),
          eval_loop_step fuel cur (t :: r) (by simp),
          ihOperation cur (t :: r) hna]
        cases hop : eval_operation fuel cur (t :: r) with
        | error e => rfl
        | ok p =>
          obtain ⟨v, rest⟩ := p
          have hsuf : rest <:+ t :: r := (flat_suffix fuel).2.2.2 cur _ v rest hop
          exact ihTop v rest fun hmem => hna (hsuf.mem hmem)

/-- On token streams with no `Add` token, the two evaluators agree exactly. -/
theorem _fval_eq_eval_of_noadd (fuel : Nat) (ts : List Token)
    (hna : Token.add ∉ ts) : _fval fuel ts = _eval fuel ts := by
  show (match fval_loperand fuel ts with
    | .error e => Except.error e
    | .ok (v, rest) => fval_loop fuel v rest) =
    (match eval_operand fuel ts with
    | .error e => Except.error e
    | .ok (v, rest) => eval_loop fuel v rest)
  rw [(noadd_master fuel).1 ts hna]
  cases hop : eval_operand fuel ts with
  | error e => rfl
  | ok p =>
    obtain ⟨v, rest⟩ := p
    have hsuf : rest <:+ ts := (flat_suffix fuel).1 ts v rest hop
    exact (noadd_master fuel).2.2.2.2.2 v rest fun hmem => hna (hsuf.mem hmem)

/-- A source starts with a decimal digit. -/
def startsDigit (l : List Char) : Bool :=
  match l with
  | [] => false
  | c :: _ => isDigitChar c

/-- A source ends with a decimal digit. -/
def endsDigit (l : List Char) : Bool :=
  match l.getLast? with
  | some c => isDigitChar c
  | none => false

/-- A leading space is skipped by the tokenizer. -/
theorem tokenize_space (ys : List Char) : tokenize (' ' :: ys) = tokenize ys :=
  tokenize_cons_skip ' ' ys (by decide) (by decide) (by decide) (by decide) (by decide)

/-- The last character of a nonempty tail determines `endsDigit`. -/
theorem endsDigit_cons (c : Char) (xs : List Char) (h : xs ≠ []) :
    endsDigit (c :: xs) = endsDigit xs := by
  show endsDigit ([c] ++ xs) = endsDigit xs
  unfold endsDigit
  rw [List.getLast?_append_of_ne_nil [c] h]

/-- Transferring the junction condition to a tail of the left part. -/
theorem endsDigit_tail (c : Char) (xs ys : List Char)
    (h : endsDigit (c :: xs) = true → startsDigit ys = false) :
    endsDigit xs = true → startsDigit ys = false := by
  intro hx
  apply h
  match xs, hx with
  | x :: xs2, hx =>
    rw [endsDigit_cons c (x :: xs2) (by simp)]
    exact hx

/-- A nonempty all-digit source ends with a digit. -/
theorem endsDigit_of_all (l : List Char) (hne : l ≠ [])
    (hall : ∀ a ∈ l, isDigitChar a = true) : endsDigit l = true := by
  unfold endsDigit
  cases hl : l.getLast? with
  | none => exact absurd (List.getLast?_eq_none_iff.mp hl) hne
  | some a => exact hall a (List.mem_of_mem_getLast? hl)

/-- A source that does not start with a digit has no leading digit run. -/
theorem takeWhile_eq_nil_of_not_startsDigit (ys : List Char)
    (h : startsDigit ys = false) : ys.takeWhile isDigitChar = [] := by
  match ys with
  | [] => rfl
  | c :: r =>
    simp only [startsDigit] at h
    simp [List.takeWhile_cons, h]

/-- A source that does not start with a digit survives `dropWhile` whole. -/
theorem dropWhile_eq_self_of_not_startsDigit (ys : List Char)
    (h : startsDigit ys = false) : ys.dropWhile isDigitChar = ys := by
  match ys with
  | [] => rfl
  | c :: r =>
    simp only [startsDigit] at h
    simp [List.dropWhile_cons, h]

/-- Inserting one extra space character at any position that does not split a
digit run leaves the token stream unchanged.  (Spaces are skipped, so the only
way a space could matter is by terminating an integer literal early; the
junction hypothesis rules exactly that out.) -/
theorem tokenize_insert_space_aux : ∀ (n : Nat) (xs ys : List Char),
    xs.length ≤ n →
    (endsDigit xs = true → startsDigit ys = false) →
    tokenize (xs ++ ' ' :: ys) = tokenize (xs ++ ys) := by
  intro n
  induction n with
  | zero =>
    intro xs ys hlen _
    have hxs : xs = [] := List.length_eq_zero.mp (Nat.le_zero.mp hlen)
    subst hxs
    simpa using tokenize_space ys
  | succ n ih =>
    intro xs ys hlen h
    match xs with
    | [] => simpa using tokenize_space ys
    | c :: xs2 =>
      simp only [List.length_cons, Nat.add_le_add_iff_right] at hlen
      rw [List.cons_append, List.cons_append]
      by_cases hc1 : c = '+'
      · subst hc1
        rw [tokenize_cons_add, tokenize_cons_add,
          ih xs2 ys hlen (endsDigit_tail _ _ _ h)]
      · by_cases hc2 : c = '*'
        · subst hc2
          rw [tokenize_cons_mul, tokenize_cons_mul,
            ih xs2 ys hlen (endsDigit_tail _ _ _ h)]
        · by_cases hc3 : c = '('
          · subst hc3
            rw [tokenize_cons_lparen, tokenize_cons_lparen,
              ih xs2 ys hlen (endsDigit_tail _ _ _ h)]
          · by_cases hc4 : c = ')'
            · subst hc4
              rw [tokenize_cons_rparen, tokenize_cons_rparen,
                ih xs2 ys hlen (endsDigit_tail _ _ _ h)]
            · by_cases hc5 : isDigitChar c = true
              · -- digit case: the run may absorb part of xs2
                rw [tokenize_cons_digit c _ hc5, tokenize_cons_digit c _ hc5]
                have hsplit : xs2.takeWhile isDigitChar ++ xs2.dropWhile isDigitChar
                    = xs2 := List.takeWhile_append_dropWhile isDigitChar xs2
                have hds : ∀ a ∈ xs2.takeWhile isDigitChar, isDigitChar a = true :=
                  fun a ha => List.mem_takeWhile_imp ha
                cases hzs : xs2.dropWhile isDigitChar with
                | nil =>
                  -- xs ends inside a digit run, so ys cannot start with a digit
                  have hall : ∀ a ∈ xs2, isDigitChar a = true := by
                    intro a ha
                    rw [← hsplit, hzs, List.append_nil] at ha
                    exact hds a ha
                  have hysd : startsDigit ys = false := by
                    apply h
                    exact endsDigit_of_all (c :: xs2) (by simp)
                      (by intro a ha
                          cases List.mem_cons.mp ha with
                          | inl hac => subst hac; exact hc5
                          | inr ham => exact hall a ham)
                  rw [takeWhile_append_all _ xs2 _ hall,
                    takeWhile_append_all _ xs2 _ hall,
                    dropWhile_append_all _ xs2 _ hall,
                    dropWhile_append_all _ xs2 _ hall]
                  have hsp : isDigitChar ' ' = false := by decide
                  have h1 : List.takeWhile isDigitChar (' ' :: ys) = [] := by
                    simp [List.takeWhile_cons, hsp]
                  have h2 : List.dropWhile isDigitChar (' ' :: ys) = ' ' :: ys := by
                    simp [List.dropWhile_cons, hsp]
                  rw [h1, h2, takeWhile_eq_nil_of_not_startsDigit ys hysd,
                    dropWhile_eq_self_of_not_startsDigit ys hysd, tokenize_space ys]
                | cons z zs2 =>
                  have hz : isDigitChar z = false :=
                    dropWhile_head_false isDigitChar xs2 z zs2 hzs
                  have hxs2 : xs2 = xs2.takeWhile isDigitChar ++ z :: zs2 := by
                    rw [← hzs]
                    exact hsplit.symm
                  -- rewrite both appends through the digit prefix
                  have hTake1 : List.takeWhile isDigitChar (xs2 ++ ' ' :: ys)
                      = xs2.takeWhile isDigitChar := by
                    conv_lhs => rw [hxs2]
                    rw [List.append_assoc, takeWhile_append_all _ _ _ hds,
                      List.cons_append, List.takeWhile_cons, hz]
                    simp
                  have hDrop1 : List.dropWhile isDigitChar (xs2 ++ ' ' :: ys)
                      = z :: (zs2 ++ ' ' :: ys) := by
                    conv_lhs => rw [hxs2]
                    rw [List.append_assoc, dropWhile_append_all _ _ _ hds,
                      List.cons_append, List.dropWhile_cons, hz]
                    simp
                  have hTake2 : List.takeWhile isDigitChar (xs2 ++ ys)
                      = xs2.takeWhile isDigitChar := by
                    conv_lhs => rw [hxs2]
                    rw [List.append_assoc, takeWhile_append_all _ _ _ hds,
                      List.cons_append, List.takeWhile_cons, hz]
                    simp
                  have hDrop2 : List.dropWhile isDigitChar (xs2 ++ ys)
                      = z :: (zs2 ++ ys) := by
                    conv_lhs => rw [hxs2]
                    rw [List.append_assoc, dropWhile_append_all _ _ _ hds,
                      List.cons_append, List.dropWhile_cons, hz]
                    simp
                  rw [hTake1, hDrop1, hTake2, hDrop2]
                  have hlen2 : (z :: zs2).length ≤ n := by
                    have : xs2.length = (xs2.takeWhile isDigitChar).length
                        + (z :: zs2).length := by
                      conv_lhs => rw [hxs2]
                      rw [List.length_append]
                    omega
                  have hht : endsDigit (z :: zs2) = true → startsDigit ys = false := by
                    intro hzd
                    apply h
                    rw [endsDigit_cons c xs2 (by rw [hxs2]; simp)]
                    rw [show xs2 = xs2.takeWhile isDigitChar ++ z :: zs2 from hxs2]
                    unfold endsDigit
                    rw [List.getLast?_append_of_ne_nil _ (by simp)]
                    unfold endsDigit at hzd
                    exact hzd
                  have hrec := ih (z :: zs2) ys hlen2 hht
                  rw [List.cons_append] at hrec
                  rw [hrec, List.cons_append]
              · rw [tokenize_cons_skip c _ hc1 hc2 hc3 hc4
                    (Bool.not_eq_true _ |>.mp hc5),
                  tokenize_cons_skip c _ hc1 hc2 hc3 hc4
                    (Bool.not_eq_true _ |>.mp hc5),
                  ih xs2 ys hlen (endsDigit_tail _ _ _ h)]

/-- Single-space insertion invariance, stated without the length recursion. -/
theorem tokenize_insert_space (xs ys : List Char)
    (h : endsDigit xs = true → startsDigit ys = false) :
    tokenize (xs ++ ' ' :: ys) = tokenize (xs ++ ys) :=
  tokenize_insert_space_aux xs.length xs ys (Nat.le_refl _) h

/-- The decimal digit character for a value below ten. -/
def digitChar : Nat → Char
  | 0 => '0'
  | 1 => '1'
  | 2 => '2'
  | 3 => '3'
  | 4 => '4'
  | 5 => '5'
  | 6 => '6'
  | 7 => '7'
  | 8 => '8'
  | 9 => '9'
  | _ + 10 => '0'

/-- The standard decimal rendering of a natural number, most significant digit
first (the spec's `str(n)`). -/
def renderNat (n : Nat) : List Char :=
  if n < 10 then [digitChar n]
  else renderNat (n / 10) ++ [digitChar (n % 10)]
termination_by n
decreasing_by
  exact Nat.div_lt_self (by omega) (by omega)

/-- Digit characters are digits. -/
theorem digitChar_isDigit (d : Nat) (h : d < 10) : isDigitChar (digitChar d) = true := by
  interval_cases d <;> decide

/-- Digit characters decode to their value. -/
theorem digitChar_val (d : Nat) (h : d < 10) : (digitChar d).toNat - 48 = d := by
  interval_cases d <;> decide

/-- Value of a digit string extended by one digit on the right. -/
theorem digitsToNat_append (l : List Char) (c : Char) :
    digitsToNat (l ++ [c]) = 10 * digitsToNat l + (c.toNat - 48) := by
  simp [digitsToNat, List.foldl_append]

/-- Every character of a decimal rendering is a digit. -/
theorem renderNat_all_digits (n : Nat) : ∀ c ∈ renderNat n, isDigitChar c = true := by
  induction n using Nat.strong_induction_on with
  | _ n ih =>
    rw [renderNat]
    split
    · intro c hc
      rw [List.mem_singleton] at hc
      subst hc
      exact digitChar_isDigit n (by omega)
    · intro c hc
      rcases List.mem_append.mp hc with hl | hr
      · exact ih (n / 10) (Nat.div_lt_self (by omega) (by omega)) c hl
      · rw [List.mem_singleton] at hr
        subst hr
        exact digitChar_isDigit (n % 10) (Nat.mod_lt n (by omega))

/-- Parsing a decimal rendering recovers the value. -/
theorem digitsToNat_renderNat (n : Nat) : digitsToNat (renderNat n) = n := by
  induction n using Nat.strong_induction_on with
  | _ n ih =>
    rw [renderNat]
    split
    · rename_i h
      show digitsToNat [digitChar n] = n
      have : digitsToNat [digitChar n] = (digitChar n).toNat - 48 := by
        simp [digitsToNat]
      rw [this, digitChar_val n h]
    · rename_i h
      rw [digitsToNat_append, ih (n / 10) (Nat.div_lt_self (by omega) (by omega)),
        digitChar_val (n % 10) (Nat.mod_lt n (by omega))]
      omega

/-- A decimal rendering is never empty. -/
theorem renderNat_ne_nil (n : Nat) : renderNat n ≠ [] := by
  rw [renderNat]
  split <;> simp

/-- Tokenizing an all-digit source yields one `Int` token when the value
parses, and fails otherwise. -/
theorem tokenize_all_digits (c : Char) (cs : List Char)
    (hall : ∀ a ∈ c :: cs, isDigitChar a = true) :
    tokenize (c :: cs) =
      if digitsToNat (c :: cs) ≤ i64Max then
        some [Token.int (digitsToNat (c :: cs))]
      else none := by
  have htail : ∀ a ∈ cs, isDigitChar a = true :=
    fun a ha => hall a (List.mem_cons_of_mem _ ha)
  rw [tokenize_cons_digit c cs (hall c (List.mem_cons_self _ _)),
    takeWhile_all _ cs htail, dropWhile_all _ cs htail, tokenize_nil]
  split <;> rfl

/-- Tokenizing a decimal rendering of a parseable value gives its token. -/
theorem tokenize_renderNat (n : Nat) (h : n ≤ i64Max) :
    tokenize (renderNat n) = some [Token.int (n : Int)] := by
  obtain ⟨c, cs, hcc⟩ := List.exists_cons_of_ne_nil (renderNat_ne_nil n)
  rw [hcc, tokenize_all_digits c cs (by rw [← hcc]; exact renderNat_all_digits n),
    show digitsToNat (c :: cs) = n by rw [← hcc]; exact digitsToNat_renderNat n,
    if_pos h]

/-- Tokenizing a decimal rendering of an overlarge value hits the parse
panic. -/
theorem tokenize_renderNat_overflow (n : Nat) (h : i64Max < n) :
    tokenize (renderNat n) = none := by
  obtain ⟨c, cs, hcc⟩ := List.exists_cons_of_ne_nil (renderNat_ne_nil n)
  rw [hcc, tokenize_all_digits c cs (by rw [← hcc]; exact renderNat_all_digits n),
    show digitsToNat (c :: cs) = n by rw [← hcc]; exact digitsToNat_renderNat n,
    if_neg (by omega)]

/-- Unfolding `digitRuns` on a leading digit. -/
theorem digitRuns_cons_digit (c : Char) (cs : List Char) (h : isDigitChar c = true) :
    digitRuns (c :: cs) =
      (c :: cs.takeWhile isDigitChar) :: digitRuns (cs.dropWhile isDigitChar) := by
  simp [digitRuns, h]

/-- Unfolding `digitRuns` on a leading non-digit. -/
theorem digitRuns_cons_skip (c : Char) (cs : List Char) (h : isDigitChar c = false) :
    digitRuns (c :: cs) = digitRuns cs := by
  simp [digitRuns, h]

/-- When every maximal digit run of the source parses as an `i64`, the
tokenizer never fails. -/
theorem tokenize_isSome_aux : ∀ (n : Nat) (s : List Char), s.length ≤ n →
    (∀ r ∈ digitRuns s, digitsToNat r ≤ i64Max) → (tokenize s).isSome = true := by
  intro n
  induction n with
  | zero =>
    intro s hlen _
    have hs : s = [] := List.length_eq_zero.mp (Nat.le_zero.mp hlen)
    subst hs
    rw [tokenize_nil]
    rfl
  | succ n ih =>
    intro s hlen hruns
    match s with
    | [] => rw [tokenize_nil]; rfl
    | c :: cs =>
      simp only [List.length_cons, Nat.add_le_add_iff_right] at hlen
      by_cases hc1 : c = '+'
      · subst hc1
        rw [tokenize_cons_add, Option.isSome_map']
        exact ih cs hlen (by
          rw [digitRuns_cons_skip _ _ (by decide)] at hruns
          exact hruns)
      · by_cases hc2 : c = '*'
        · subst hc2
          rw [tokenize_cons_mul, Option.isSome_map']
          exact ih cs hlen (by
            rw [digitRuns_cons_skip _ _ (by decide)] at hruns
            exact hruns)
        · by_cases hc3 : c = '('
          · subst hc3
            rw [tokenize_cons_lparen, Option.isSome_map']
            exact ih cs hlen (by
              rw [digitRuns_cons_skip _ _ (by decide)] at hruns
              exact hruns)
          · by_cases hc4 : c = ')'
            · subst hc4
              rw [tokenize_cons_rparen, Option.isSome_map']
              exact ih cs hlen (by
                rw [digitRuns_cons_skip _ _ (by decide)] at hruns
                exact hruns)
            · by_cases hc5 : isDigitChar c = true
              · rw [digitRuns_cons_digit c cs hc5] at hruns
                rw [tokenize_cons_digit c cs hc5,
                  if_pos (hruns _ (List.mem_cons_self _ _)), Option.isSome_map']
                exact ih (cs.dropWhile isDigitChar)
                  (Nat.le_trans (dropWhile_length_le _ _) hlen)
                  (fun r hr => hruns r (List.mem_cons_of_mem _ hr))
              · have hc5f : isDigitChar c = false := Bool.not_eq_true _ |>.mp hc5
                rw [tokenize_cons_skip c cs hc1 hc2 hc3 hc4 hc5f]
                exact ih cs hlen (by
                  rw [digitRuns_cons_skip _ _ hc5f] at hruns
                  exact hruns)

/-- Evaluating after a known tokenization (flat). -/
theorem eval_eq_of_tokenize (s : List Char) (ts : List Token)
    (h : tokenize s = some ts) : eval s = some (_eval (fuelFor ts) ts) := by
  unfold eval
  rw [h]
  rfl

/-- Evaluating after a known tokenization (precedence). -/
theorem fval_eq_of_tokenize (s : List Char) (ts : List Token)
    (h : tokenize s = some ts) : fval s = some (_fval (fuelFor ts) ts) := by
  unfold fval
  rw [h]
  rfl

/-- C1: the flat evaluator applies plus and times with equal precedence,
folding strictly left to right; a pending operation is applied to the running
value immediately, and the spec's seven flat examples evaluate as stated. -/
theorem claim_C1 :
    (∀ fuel l n rest, eval_operation (fuel + 2) l (Token.add :: Token.int n :: rest)
      = .ok (l + n, rest)) ∧
    (∀ fuel l n rest, eval_operation (fuel + 2) l (Token.mul :: Token.int n :: rest)
      = .ok (l * n, rest)) ∧
    eval "10 + 11".toList = some (.ok 21) ∧
    eval "10 * 11".toList = some (.ok 110) ∧
    eval "10 + 11 * 5".toList = some (.ok 105) ∧
    eval "2 * 3 + (4 * 5)".toList = some (.ok 26) ∧
    eval "5 + (8 * 3 + 9 + 3 * 4 * 3)".toList = some (.ok 437) ∧
    eval "5 * 9 * (7 * 3 * 3 + 9 * 3 + (8 + 6 * 4))".toList = some (.ok 12240) ∧
    eval "((2 + 4 * 9) * (6 + 9 * 8 + 6) + 6) + 2 + 4 * 2".toList = some (.ok 13632) := by
  refine ⟨fun fuel l n rest => rfl, fun fuel l n rest => rfl, ?_, ?_, ?_, ?_, ?_, ?_, ?_⟩
  · rw [eval_eq_of_tokenize "10 + 11".toList
      [Token.int 10, Token.add, Token.int 11]
      (by simp [tokenize, isDigitChar, digitsToNat, i64Max])]
    rfl
  · rw [eval_eq_of_tokenize "10 * 11".toList
      [Token.int 10, Token.mul, Token.int 11]
      (by simp [tokenize, isDigitChar, digitsToNat, i64Max])]
    rfl
  · rw [eval_eq_of_tokenize "10 + 11 * 5".toList
      [Token.int 10, Token.add, Token.int 11, Token.mul, Token.int 5]
      (by simp [tokenize, isDigitChar, digitsToNat, i64Max])]
    rfl
  · rw [eval_eq_of_tokenize "2 * 3 + (4 * 5)".toList
      [Token.int 2, Token.mul, Token.int 3, Token.add, Token.lparen, Token.int 4, Token.mul, Token.int 5, Token.rparen]
      (by simp [tokenize, isDigitChar, digitsToNat, i64Max])]
    rfl
  · rw [eval_eq_of_tokenize "5 + (8 * 3 + 9 + 3 * 4 * 3)".toList
      [Token.int 5, Token.add, Token.lparen, Token.int 8, Token.mul, Token.int 3, Token.add, Token.int 9, Token.add, Token.int 3, Token.mul, Token.int 4, Token.mul, Token.int 3, Token.rparen]
      (by simp [tokenize, isDigitChar, digitsToNat, i64Max])]
    rfl
  · rw [eval_eq_of_tokenize "5 * 9 * (7 * 3 * 3 + 9 * 3 + (8 + 6 * 4))".toList
      [Token.int 5, Token.mul, Token.int 9, Token.mul, Token.lparen, Token.int 7, Token.mul, Token.int 3, Token.mul, Token.int 3, Token.add, Token.int 9, Token.mul, Token.int 3, Token.add, Token.lparen, Token.int 8, Token.add, Token.int 6, Token.mul, Token.int 4, Token.rparen, Token.rparen]
      (by simp [tokenize, isDigitChar, digitsToNat, i64Max])]
    rfl
  · rw [eval_eq_of_tokenize "((2 + 4 * 9) * (6 + 9 * 8 + 6) + 6) + 2 + 4 * 2".toList
      [Token.lparen, Token.lparen, Token.int 2, Token.add, Token.int 4, Token.mul, Token.int 9, Token.rparen, Token.mul, Token.lparen, Token.int 6, Token.add, Token.int 9, Token.mul, Token.int 8, Token.add, Token.int 6, Token.rparen, Token.add, Token.int 6, Token.rparen, Token.add, Token.int 2, Token.add, Token.int 4, Token.mul, Token.int 2]
      (by simp [tokenize, isDigitChar, digitsToNat, i64Max])]
    rfl

/-- C2: the precedence evaluator gives plus tighter binding than times (a
chain of additions is folded before being used as a multiplication operand),
and the spec's seven precedence examples evaluate as stated. -/
theorem claim_C2 :
    fval "10 * 11 + 12".toList = some (.ok 230) ∧
    fval "1 + 2 * 3 + 4 * 5 + 6".toList = some (.ok 231) ∧
    fval "1 + (2 * 3) + (4 * (5 + 6))".toList = some (.ok 51) ∧
    fval "2 * 3 + (4 * 5)".toList = some (.ok 46) ∧
    fval "5 + (8 * 3 + 9 + 3 * 4 * 3)".toList = some (.ok 1445) ∧
    fval "5 * 9 * (7 * 3 * 3 + 9 * 3 + (8 + 6 * 4))".toList = some (.ok 669060) ∧
    fval "((2 + 4 * 9) * (6 + 9 * 8 + 6) + 6) + 2 + 4 * 2".toList = some (.ok 23340) := by
  refine ⟨?_, ?_, ?_, ?_, ?_, ?_, ?_⟩
  · rw [fval_eq_of_tokenize "10 * 11 + 12".toList
      [Token.int 10, Token.mul, Token.int 11, Token.add, Token.int 12]
      (by simp [tokenize, isDigitChar, digitsToNat, i64Max])]
    rfl
  · rw [fval_eq_of_tokenize "1 + 2 * 3 + 4 * 5 + 6".toList
      [Token.int 1, Token.add, Token.int 2, Token.mul, Token.int 3, Token.add, Token.int 4, Token.mul, Token.int 5, Token.add, Token.int 6]
      (by simp [tokenize, isDigitChar, digitsToNat, i64Max])]
    rfl
  · rw [fval_eq_of_tokenize "1 + (2 * 3) + (4 * (5 + 6))".toList
      [Token.int 1, Token.add, Token.lparen, Token.int 2, Token.mul, Token.int 3, Token.rparen, Token.add, Token.lparen, Token.int 4, Token.mul, Token.lparen, Token.int 5, Token.add, Token.int 6, Token.rparen, Token.rparen]
      (by simp [tokenize, isDigitChar, digitsToNat, i64Max])]
    rfl
  · rw [fval_eq_of_tokenize "2 * 3 + (4 * 5)".toList
      [Token.int 2, Token.mul, Token.int 3, Token.add, Token.lparen, Token.int 4, Token.mul, Token.int 5, Token.rparen]
      (by simp [tokenize, isDigitChar, digitsToNat, i64Max])]
    rfl
  · rw [fval_eq_of_tokenize "5 + (8 * 3 + 9 + 3 * 4 * 3)".toList
      [Token.int 5, Token.add, Token.lparen, Token.int 8, Token.mul, Token.int 3, Token.add, Token.int 9, Token.add, Token.int 3, Token.mul, Token.int 4, Token.mul, Token.int 3, Token.rparen]
      (by simp [tokenize, isDigitChar, digitsToNat, i64Max])]
    rfl
  · rw [fval_eq_of_tokenize "5 * 9 * (7 * 3 * 3 + 9 * 3 + (8 + 6 * 4))".toList
      [Token.int 5, Token.mul, Token.int 9, Token.mul, Token.lparen, Token.int 7, Token.mul, Token.int 3, Token.mul, Token.int 3, Token.add, Token.int 9, Token.mul, Token.int 3, Token.add, Token.lparen, Token.int 8, Token.add, Token.int 6, Token.mul, Token.int 4, Token.rparen, Token.rparen]
      (by simp [tokenize, isDigitChar, digitsToNat, i64Max])]
    rfl
  · rw [fval_eq_of_tokenize "((2 + 4 * 9) * (6 + 9 * 8 + 6) + 6) + 2 + 4 * 2".toList
      [Token.lparen, Token.lparen, Token.int 2, Token.add, Token.int 4, Token.mul, Token.int 9, Token.rparen, Token.mul, Token.lparen, Token.int 6, Token.add, Token.int 9, Token.mul, Token.int 8, Token.add, Token.int 6, Token.rparen, Token.add, Token.int 6, Token.rparen, Token.add, Token.int 2, Token.add, Token.int 4, Token.mul, Token.int 2]
      (by simp [tokenize, isDigitChar, digitsToNat, i64Max])]
    rfl

/-- C3: `fval_roperand` first evaluates one immediate operand exactly as
`fval_loperand` does; if the next peeked token is `Add` it consumes it and
returns `operand + roperand(rest)` via `fval_addition` (recursing rightward as
long as `Add` tokens keep appearing), and if instead the stream is exhausted
or the next token is `RParen` or `Mul`, it returns the operand unchanged. -/
theorem claim_C3 (fuel : Nat) (ts : List Token) (v : Int) (rest : List Token)
    (h : fval_loperand (fuel + 1) ts = .ok (v, rest)) :
    (∀ rest2, rest = Token.add :: rest2 →
      fval_roperand (fuel + 1) ts = fval_addition fuel v rest2) ∧
    (rest = [] ∨ rest.head? = some Token.rparen ∨ rest.head? = some Token.mul →
      fval_roperand (fuel + 1) ts = .ok (v, rest)) := by
  rw [fval_roperand_of_loperand_ok fuel ts v rest h]
  constructor
  · intro rest2 hr
    subst hr
    rfl
  · intro hcase
    rcases hcase with hnil | hrp | hmul
    · subst hnil
      rfl
    · match rest, hrp with
      | .rparen :: r2, hrp => rfl
    · match rest, hmul with
      | .mul :: r2, hmul => rfl

/-- Witness for C3 at a concrete stream: after the operand `5` of
`5 + 3`, the peeked `Add` is consumed and folded through `fval_addition`. -/
theorem claim_C3_witness :
    fval_roperand 2 [Token.int 5, Token.add, Token.int 3]
      = fval_addition 1 5 [Token.int 3] :=
  (claim_C3 1 [Token.int 5, Token.add, Token.int 3] 5 [Token.add, Token.int 3]
    rfl).1 [Token.int 3] rfl

/-- C4 fails as stated: a single maximal digit run whose value exceeds
`i64::MAX` (nineteen nines) makes the tokenizer's integer conversion fail,
both in `parse_num` itself and through `tokenize`. -/
theorem claim_C4_counterexample :
    parse_num '9' "999999999999999999".toList = none ∧
    tokenize "9999999999999999999".toList = none := by
  constructor
  · decide
  · rw [show "9999999999999999999".toList
        = '9' :: "999999999999999999".toList from rfl,
      tokenize_all_digits '9' _ (by decide)]
    decide

/-- C4 amended: the digit-string-to-i64 conversion performed by the tokenizer
succeeds on every source whose maximal digit runs all have values of at most
`i64::MAX` (the original claim omitted this bound). -/
theorem claim_C4 (s : List Char)
    (h : ∀ r ∈ digitRuns s, digitsToNat r ≤ i64Max) :
    (tokenize s).isSome = true :=
  tokenize_isSome_aux s.length s (Nat.le_refl _) h

/-- Witness for C4 on a source with two digit runs. -/
theorem claim_C4_witness : (tokenize "12+345".toList).isSome = true :=
  claim_C4 "12+345".toList (by
    rw [show digitRuns "12+345".toList = [['1', '2'], ['3', '4', '5']] from by
      simp [digitRuns, isDigitChar]]
    decide)

/-- C5: the tokenizer maps the four symbol characters to their tokens, ends
the stream exactly when the source is exhausted, silently skips every other
character (whitespace included) without terminating the stream, greedily
accumulates a maximal run of consecutive digits into a single `Int` token,
and tokenizes the spec's example `1()+*` as stated. -/
theorem claim_C5 :
    tokenize "1()+*".toList
      = some [Token.int 1, Token.lparen, Token.rparen, Token.add, Token.mul] ∧
    tokenize [] = some [] ∧
    (∀ cs, tokenize ('+' :: cs) = (tokenize cs).map (Token.add :: ·)) ∧
    (∀ cs, tokenize ('*' :: cs) = (tokenize cs).map (Token.mul :: ·)) ∧
    (∀ cs, tokenize ('(' :: cs) = (tokenize cs).map (Token.lparen :: ·)) ∧
    (∀ cs, tokenize (')' :: cs) = (tokenize cs).map (Token.rparen :: ·)) ∧
    (∀ c cs, c ≠ '+' → c ≠ '*' → c ≠ '(' → c ≠ ')' → isDigitChar c = false →
      tokenize (c :: cs) = tokenize cs) ∧
    (∀ c ds rest, isDigitChar c = true → (∀ d ∈ ds, isDigitChar d = true) →
      (rest.head?.all fun r => !isDigitChar r) = true →
      tokenize (c :: (ds ++ rest)) =
        if digitsToNat (c :: ds) ≤ i64Max then
          (tokenize rest).map (Token.int (digitsToNat (c :: ds)) :: ·)
        else none) := by
  refine ⟨by simp [tokenize, isDigitChar, digitsToNat, i64Max], tokenize_nil,
    tokenize_cons_add, tokenize_cons_mul, tokenize_cons_lparen, tokenize_cons_rparen,
    tokenize_cons_skip, ?_⟩
  intro c ds rest hc hds hrest
  rw [tokenize_cons_digit c _ hc]
  have hnd : rest = [] ∨ ∃ r r2, rest = r :: r2 ∧ isDigitChar r = false := by
    cases rest with
    | nil => exact Or.inl rfl
    | cons r r2 =>
      refine Or.inr ⟨r, r2, rfl, ?_⟩
      simp only [List.head?, Option.all] at hrest
      simpa using hrest
  have ht : (ds ++ rest).takeWhile isDigitChar = ds := by
    rw [takeWhile_append_all _ ds rest hds]
    rcases hnd with hnil | ⟨r, r2, hr, hrf⟩
    · subst hnil
      simp
    · subst hr
      rw [List.takeWhile_cons, hrf]
      simp
  have hd : (ds ++ rest).dropWhile isDigitChar = rest := by
    rw [dropWhile_append_all _ ds rest hds]
    rcases hnd with hnil | ⟨r, r2, hr, hrf⟩
    · subst hnil
      rfl
    · subst hr
      rw [List.dropWhile_cons, hrf]
      simp
  rw [ht, hd]

/-- Witness for C5: the greedy digit rule on `12+` and the skip rule on a
space. -/
theorem claim_C5_witness :
    tokenize ('1' :: (['2'] ++ ['+'])) =
      (if digitsToNat ['1', '2'] ≤ i64Max then
        (tokenize ['+']).map (Token.int (digitsToNat ['1', '2']) :: ·)
      else none) ∧
    tokenize (' ' :: "1".toList) = tokenize "1".toList :=
  ⟨claim_C5.2.2.2.2.2.2.2 '1' ['2'] ['+'] (by decide) (by decide) (by decide),
   claim_C5.2.2.2.2.2.2.1 ' ' "1".toList (by decide) (by decide) (by decide)
     (by decide) (by decide)⟩

/-- C6: in both evaluators, when the stream is exhausted while a
subexpression's operator loop is still running (an unclosed parenthesis), the
accumulated result is returned as-is rather than failing; in particular the
unbalanced source `(2*(3+4` evaluates successfully in both regimes. -/
theorem claim_C6 :
    (∀ fuel cur, eval_subexpr_loop (fuel + 1) cur [] = .ok (cur, []) ∧
      fval_subexpr_loop (fuel + 1) cur [] = .ok (cur, [])) ∧
    eval "(2*(3+4".toList = some (.ok 14) ∧
    fval "(2*(3+4".toList = some (.ok 14) := by
  refine ⟨fun fuel cur => ⟨rfl, rfl⟩, ?_, ?_⟩
  · rw [eval_eq_of_tokenize "(2*(3+4".toList
      [Token.lparen, Token.int 2, Token.mul, Token.lparen, Token.int 3,
        Token.add, Token.int 4]
      (by simp [tokenize, isDigitChar, digitsToNat, i64Max])]
    rfl
  · rw [fval_eq_of_tokenize "(2*(3+4".toList
      [Token.lparen, Token.int 2, Token.mul, Token.lparen, Token.int 3,
        Token.add, Token.int 4]
      (by simp [tokenize, isDigitChar, digitsToNat, i64Max])]
    rfl

/-- C7: for both evaluators at the standard fuel, every evaluation either
returns a value or fails with exactly one of the three fatal conditions
(`UnexpectedEndOfInput`, `IllegalOperandToken`, `IllegalOperatorToken`); the
conditions fire exactly where described (stream exhausted at an operand or
operator position; non-operand token at an operand position; non-operator
token at an operator position, reported after the right operand is read) and
remain separately identifiable. -/
theorem claim_C7 :
    (∀ ts, (∃ v, _eval (fuelFor ts) ts = .ok v) ∨
      _eval (fuelFor ts) ts = .error .unexpectedEndOfInput ∨
      (∃ t, _eval (fuelFor ts) ts = .error (.illegalOperandToken t)) ∨
      (∃ t, _eval (fuelFor ts) ts = .error (.illegalOperatorToken t))) ∧
    (∀ ts, (∃ v, _fval (fuelFor ts) ts = .ok v) ∨
      _fval (fuelFor ts) ts = .error .unexpectedEndOfInput ∨
      (∃ t, _fval (fuelFor ts) ts = .error (.illegalOperandToken t)) ∨
      (∃ t, _fval (fuelFor ts) ts = .error (.illegalOperatorToken t))) ∧
    (∀ fuel, eval_operand (fuel + 1) [] = .error .unexpectedEndOfInput) ∧
    (∀ fuel l, eval_operation (fuel + 1) l [] = .error .unexpectedEndOfInput) ∧
    (∀ fuel t rest, t = Token.add ∨ t = Token.mul ∨ t = Token.rparen →
      eval_operand (fuel + 1) (t :: rest) = .error (.illegalOperandToken t)) ∧
    (∀ fuel l op rest roper rest2,
      ((∃ n, op = Token.int n) ∨ op = Token.lparen ∨ op = Token.rparen) →
      eval_operand fuel rest = .ok (roper, rest2) →
      eval_operation (fuel + 1) l (op :: rest) = .error (.illegalOperatorToken op)) ∧
    (∀ fuel, fval_loperand (fuel + 1) [] = .error .unexpectedEndOfInput) ∧
    (∀ fuel l, fval_operation (fuel + 1) l [] = .error .unexpectedEndOfInput) ∧
    (∀ fuel t rest, t = Token.add ∨ t = Token.mul ∨ t = Token.rparen →
      fval_loperand (fuel + 1) (t :: rest) = .error (.illegalOperandToken t)) ∧
    (∀ t, EvalError.unexpectedEndOfInput ≠ EvalError.illegalOperandToken t) ∧
    (∀ t, EvalError.unexpectedEndOfInput ≠ EvalError.illegalOperatorToken t) ∧
    (∀ t u, EvalError.illegalOperandToken t ≠ EvalError.illegalOperatorToken u) := by
  refine ⟨?_, ?_, fun fuel => rfl, fun fuel l => rfl, ?_, ?_, fun fuel => rfl,
    fun fuel l => rfl, ?_, ?_, ?_, ?_⟩
  · intro ts
    have hval := _eval_valOk ts
    cases hres : _eval (fuelFor ts) ts with
    | ok v => exact Or.inl ⟨v, rfl⟩
    | error e =>
      rw [hres] at hval
      simp only [ValOk] at hval
      cases e with
      | unexpectedEndOfInput => exact Or.inr (Or.inl rfl)
      | illegalOperandToken t => exact Or.inr (Or.inr (Or.inl ⟨t, rfl⟩))
      | illegalOperatorToken t => exact Or.inr (Or.inr (Or.inr ⟨t, rfl⟩))
      | outOfFuel => exact absurd rfl hval
  · intro ts
    have hval := _fval_valOk ts
    cases hres : _fval (fuelFor ts) ts with
    | ok v => exact Or.inl ⟨v, rfl⟩
    | error e =>
      rw [hres] at hval
      simp only [ValOk] at hval
      cases e with
      | unexpectedEndOfInput => exact Or.inr (Or.inl rfl)
      | illegalOperandToken t => exact Or.inr (Or.inr (Or.inl ⟨t, rfl⟩))
      | illegalOperatorToken t => exact Or.inr (Or.inr (Or.inr ⟨t, rfl⟩))
      | outOfFuel => exact absurd rfl hval
  · intro fuel t rest h
    rcases h with h | h | h <;> subst h <;> rfl
  · intro fuel l op rest roper rest2 hop hoperand
    rcases hop with ⟨n, h⟩ | h | h <;> subst h <;>
      simp [eval_operation, hoperand]
  · intro fuel t rest h
    rcases h with h | h | h <;> subst h <;> rfl
  · intro t h
    cases h
  · intro t h
    cases h
  · intro t u h
    cases h

/-- Witness for C7: a stray token at an operand position fires exactly the
illegal-operand condition; the same for the operator-position equation. -/
theorem claim_C7_witness :
    eval_operand 1 [Token.mul] = .error (.illegalOperandToken Token.mul) ∧
    eval_operation 2 0 [Token.rparen, Token.int 7]
      = .error (.illegalOperatorToken Token.rparen) :=
  ⟨claim_C7.2.2.2.2.1 0 Token.mul [] (Or.inr (Or.inl rfl)),
   claim_C7.2.2.2.2.2.1 1 0 Token.rparen [Token.int 7] 7 []
     (Or.inr (Or.inr rfl)) rfl⟩

/-- C8: inserting an extra space character at any position that lies between
tokens (that is, not splitting a digit run in two) changes neither the token
stream nor the result of either evaluator.  Arbitrary numbers of inserted
spaces follow by iterating, since an insertion never creates a new
digit-to-digit junction. -/
theorem claim_C8 (xs ys : List Char)
    (h : endsDigit xs = true → startsDigit ys = false) :
    tokenize (xs ++ ' ' :: ys) = tokenize (xs ++ ys) ∧
    eval (xs ++ ' ' :: ys) = eval (xs ++ ys) ∧
    fval (xs ++ ' ' :: ys) = fval (xs ++ ys) := by
  have htok := tokenize_insert_space xs ys h
  refine ⟨htok, ?_, ?_⟩
  · unfold eval
    rw [htok]
  · unfold fval
    rw [htok]

/-- Witness for C8: inserting a space between the `+` and the `2` of `1+2`. -/
theorem claim_C8_witness :
    tokenize ("1+".toList ++ ' ' :: "2".toList) = tokenize ("1+".toList ++ "2".toList) ∧
    eval ("1+".toList ++ ' ' :: "2".toList) = eval ("1+".toList ++ "2".toList) ∧
    fval ("1+".toList ++ ' ' :: "2".toList) = fval ("1+".toList ++ "2".toList) :=
  claim_C8 "1+".toList "2".toList (by decide)

/-- C9 fails as stated: for `n = 2^63 = 9223372036854775808` (which exceeds
`i64::MAX`), evaluating the decimal rendering of `n` does not return `n` —
the tokenizer's integer conversion fails instead. -/
theorem claim_C9_counterexample :
    eval (renderNat 9223372036854775808)
      ≠ some (Except.ok (9223372036854775808 : Int)) := by
  unfold eval
  rw [tokenize_renderNat_overflow 9223372036854775808 (by norm_num [i64Max])]
  simp

/-- C9 amended: for every natural number `n` of at most `i64::MAX` (the
original claim omitted this bound), evaluating the decimal rendering of `n`
with the flat evaluator returns `n`. -/
theorem claim_C9 (n : Nat) (h : n ≤ i64Max) :
    eval (renderNat n) = some (Except.ok (n : Int)) := by
  unfold eval
  rw [tokenize_renderNat n h]
  rfl

/-- Witness for C9 at `n = 123`. -/
theorem claim_C9_witness : eval (renderNat 123) = some (Except.ok (123 : Int)) :=
  claim_C9 123 (by norm_num [i64Max])

/-- C10: on an input whose token stream contains no `Add` token, if the flat
evaluator succeeds then the precedence evaluator succeeds with the same value
(with no additions, `fval_roperand` never recurses and both evaluators reduce
to the same left-to-right fold). -/
theorem claim_C10 (s : List Char) (ts : List Token) (v : Int)
    (htok : tokenize s = some ts) (hna : Token.add ∉ ts)
    (heval : eval s = some (Except.ok v)) : fval s = some (Except.ok v) := by
  rw [eval_eq_of_tokenize s ts htok] at heval
  rw [fval_eq_of_tokenize s ts htok, _fval_eq_eval_of_noadd (fuelFor ts) ts hna]
  exact heval

/-- Witness for C10 on `2*3`. -/
theorem claim_C10_witness : fval "2*3".toList = some (Except.ok 6) :=
  claim_C10 "2*3".toList [Token.int 2, Token.mul, Token.int 3] 6
    (by simp [tokenize, isDigitChar, digitsToNat, i64Max])
    (by decide)
    (by rw [eval_eq_of_tokenize "2*3".toList [Token.int 2, Token.mul, Token.int 3]
          (by simp [tokenize, isDigitChar, digitsToNat, i64Max])]
        rfl)
